import Mathlib

/-!
Verification of the `with-type-checkers` matching engine.

The definitions below are a shallow embedding of the operator-based
walker version of the library (the second module stored in
`src/unnamed/part_002`, which imports `./defaultTypeCheckers.js` and
`./formatMessage.js`; the formatter is `src/unnamed/part_001`).  That
module is the newest revision in the repository: it is the only one with
the `$all`/`$any`/`$not`/`$tuple` operator set, the `undot` option and
the check-mode dispatchers that return the pass/fail boolean, all of
which the specification describes.

JavaScript values are embedded as the inductive `JSVal`; numbers keep
only the distinctions the code observes (NaN, negative zero, integers).
Exceptions (`throw new Error`, runtime TypeErrors) are embedded as
`Except`; `console.warn` output is collected in a `List String`.
Because the walker mutates list-form operator specs in place
(`type.shift()`), every evaluation returns the post-state of the spec
alongside its result.  Recursion is bounded by an explicit fuel
parameter so that all definitions are executable and kernel-reducible;
one unit of fuel is consumed at each entry to `walk`, so any fuel
strictly larger than the recursion depth gives the JS semantics.
-/

/-- JS numbers, restricted to the distinctions the library observes:
`isNaN` (the `number` checker excludes NaN), `Object.is(v, -0)`
(the formatter prints `-0` specially), and ordinary integral values. -/
inductive JSNum where
  | nan
  | negZero
  | ofInt (i : Int)
deriving DecidableEq, Repr

/-- Embedded JavaScript values.  `vObj` carries the constructor name
(`"Object"` for plain objects) and the own enumerable fields in
insertion order; `vFun` carries the function name (empty string for
anonymous) and whether it is an async function; `vSym` carries the
optional symbol description. -/
inductive JSVal where
  | vNull
  | vUndefined
  | vBool (b : Bool)
  | vNum (n : JSNum)
  | vStr (s : String)
  | vBigInt (i : Int)
  | vSym (descr : Option String)
  | vFun (name : String) (isAsync : Bool)
  | vArr (elems : List JSVal)
  | vObj (ctor : String) (fields : List (String × JSVal))

/-- Thrown exceptions: `jsError` for `throw new Error(msg)`,
`typeError` for runtime TypeErrors raised by the engine itself. -/
inductive JSError where
  | jsError (msg : String)
  | typeError (msg : String)
deriving DecidableEq, Repr

/-- `typeof v`. -/
def typeofStr (v : JSVal) : String :=
  match v with
  | .vNull => "object"
  | .vUndefined => "undefined"
  | .vBool _ => "boolean"
  | .vNum _ => "number"
  | .vStr _ => "string"
  | .vBigInt _ => "bigint"
  | .vSym _ => "symbol"
  | .vFun _ _ => "function"
  | .vArr _ => "object"
  | .vObj _ _ => "object"

/-- JS truthiness: `!!v`.  Falsy values are `false`, `0`, `-0`, `NaN`,
the empty string, `null`, `undefined` and `0n`. -/
def jsTruthy (v : JSVal) : Bool :=
  match v with
  | .vNull => false
  | .vUndefined => false
  | .vBool b => b
  | .vNum .nan => false
  | .vNum .negZero => false
  | .vNum (.ofInt i) => decide (i ≠ 0)
  | .vStr s => decide (s ≠ "")
  | .vBigInt i => decide (i ≠ 0)
  | .vSym _ => true
  | .vFun _ _ => true
  | .vArr _ => true
  | .vObj _ _ => true

/-- Character-level model of `String.prototype.length` (the claims only
concern plain ASCII-like text, where JS UTF-16 length and character
count agree). -/
def jsLen (s : String) : Nat := s.data.length

/-- Character-level model of `s.slice(0, n)`. -/
def jsSlice (s : String) (n : Nat) : String := String.mk (s.data.take n)

/-- Decimal-digit test used by the numeric-string model. -/
def digitsOnly (cs : List Char) : Bool := cs.all Char.isDigit

/-- Model of the `numeric` checker's string case:
`!isNaN(parseFloat(v)) && isFinite(v)` accepts exactly the strings that
are a complete finite decimal literal (optional sign, digits, optional
fraction; exponents and surrounding whitespace are not modelled, no
claim exercises them). -/
def numericChars (cs : List Char) : Bool :=
  match cs with
  | [] => false
  | c :: rest =>
    let body := if c = '-' ∨ c = '+' then rest else c :: rest
    let intPart := body.takeWhile Char.isDigit
    let after := body.dropWhile Char.isDigit
    match after with
    | [] => decide (intPart ≠ [])
    | d :: frac =>
      if d = '.' then digitsOnly frac && (decide (intPart ≠ []) || decide (frac ≠ []))
      else false

def numericStr (s : String) : Bool := numericChars s.data

/-- Digit-string parser used for array index access `value[k]`. -/
def parseNatStr (s : String) : Option Nat :=
  let cs := s.data
  if cs.isEmpty then none
  else if digitsOnly cs then
    some (cs.foldl (fun n c => n * 10 + (c.toNat - 48)) 0)
  else none

/-!  The built-in checker registry (`defaultTypeCheckers`, lines 1-36 of
the first module in `src/unnamed/part_002`, re-exported by
`defaultTypeCheckers.js`).  Each predicate mirrors the JS one; the
`instanceof`-based checkers are modelled through the constructor tag,
and the invalid-`Date` distinction, thenable promises and exotic
iterables are abstracted (no claim exercises them). -/

def defaultTypeCheckers : List (String × (JSVal → Bool)) :=
  [ ("object", fun v => match v with | .vObj _ _ => true | _ => false),
    ("plainObject", fun v => match v with | .vObj c _ => c = "Object" | _ => false),
    ("string", fun v => match v with | .vStr _ => true | _ => false),
    ("number", fun v => match v with | .vNum n => n ≠ .nan | _ => false),
    ("boolean", fun v => match v with | .vBool _ => true | _ => false),
    ("function", fun v => match v with | .vFun _ _ => true | _ => false),
    ("array", fun v => match v with | .vArr _ => true | _ => false),
    ("null", fun v => match v with | .vNull => true | _ => false),
    ("undefined", fun v => match v with | .vUndefined => true | _ => false),
    ("nullish", fun v => match v with | .vNull => true | .vUndefined => true | _ => false),
    ("symbol", fun v => match v with | .vSym _ => true | _ => false),
    ("bigint", fun v => match v with | .vBigInt _ => true | _ => false),
    ("date", fun v => match v with | .vObj c _ => c = "Date" | _ => false),
    ("regexp", fun v => match v with | .vObj c _ => c = "RegExp" | _ => false),
    ("error", fun v => match v with | .vObj c _ => c = "Error" | _ => false),
    ("promise", fun v => match v with | .vObj c _ => c = "Promise" | _ => false),
    ("set", fun v => match v with | .vObj c _ => c = "Set" | _ => false),
    ("map", fun v => match v with | .vObj c _ => c = "Map" | _ => false),
    ("weakset", fun v => match v with | .vObj c _ => c = "WeakSet" | _ => false),
    ("weakmap", fun v => match v with | .vObj c _ => c = "WeakMap" | _ => false),
    ("iterable", fun v => match v with
      | .vArr _ => true
      | .vObj c _ => c = "Set" ∨ c = "Map"
      | _ => false),
    ("numeric", fun v => match v with
      | .vNum n => n ≠ .nan
      | .vStr s => numericStr s
      | _ => false),
    ("emptyString", fun v => match v with | .vStr s => s = "" | _ => false),
    ("notEmptyString", fun v => match v with | .vStr s => s ≠ "" | _ => false),
    ("emptyArray", fun v => match v with | .vArr l => l.isEmpty | _ => false),
    ("notEmptyArray", fun v => match v with | .vArr l => !l.isEmpty | _ => false),
    ("falsy", fun v => !jsTruthy v),
    ("truthy", fun v => jsTruthy v),
    ("primitive", fun v => match v with
      | .vNull => true | .vUndefined => true | .vBool _ => true
      | .vNum _ => true | .vStr _ => true | .vBigInt _ => true | .vSym _ => true
      | _ => false),
    ("asyncFunction", fun v => match v with | .vFun _ a => a | _ => false),
    ("syncFunction", fun v => match v with | .vFun _ a => !a | _ => false) ]

/-!  Message formatting (`src/unnamed/part_001`, i.e. `formatMessage.js`). -/

/-- `formatValue` (lines 30-43 of `formatMessage.js`): bounded rendering
of a value for diagnostics.  String length and slicing are modelled at
the character level. -/
def formatValue (v : JSVal) : String :=
  match v with
  | .vNull => "[null]"
  | .vUndefined => "[undefined]"
  | .vBool b => "[boolean " ++ (cond b "true" "false") ++ "]"
  | .vBigInt i => "[bigint " ++ toString i ++ "]"
  | .vNum n =>
    "[number " ++ (match n with
      | .negZero => "-0"
      | .nan => "NaN"
      | .ofInt i => toString i) ++ "]"
  | .vStr s =>
    if jsLen s ≤ 32 then "[string \"" ++ s ++ "\"]"
    else "[string \"" ++ jsSlice s 29 ++ "...\" (" ++ toString (jsLen s) ++ ")]"
  | .vSym d =>
    "[symbol " ++ (match d with | some t => "(" ++ t ++ ")" | none => "") ++ "]"
  | .vFun name _ => "[function " ++ (if name = "" then "<anonymous>" else name) ++ "]"
  | .vArr l => "[array (" ++ toString l.length ++ ")]"
  | .vObj ctor _ =>
    "[object " ++ (if ctor ≠ "" ∧ ctor ≠ "Object" then ctor else "Object") ++ "]"

/-- Joined path components (`path.join('.')`). -/
def joinDots : List String → String
  | [] => ""
  | [x] => x
  | x :: y :: rest => x ++ "." ++ joinDots (y :: rest)

/-- `formatPrefix` from `formatMessage.js`:
`args.flat(Infinity).filter(Boolean).map(a => a + ' ').join('')`.
The caller-supplied prefix thunk `options.prefix()` is modelled as the
flattened list `pfx`; absent (`undefined`) entries are modelled as `""`,
which `filter(Boolean)` removes just like `undefined`. -/
def formatPfx (parts : List String) : String :=
  String.join ((parts.filter (fun s => !(s == ""))).map (fun s => s ++ " "))

/-- `formatExpected` (line 4-5 of `formatMessage.js`): the diagnostic
line for a failing leaf. -/
def formatExpected (pfx : List String) (ty : String) (v : JSVal) (p : List String) : String :=
  formatPfx (pfx ++ [joinDots p]) ++ "expected " ++ ty ++ " but got " ++ formatValue v

/-!  Type-specs.  A spec is itself a JS value on which `walk` dispatches
by `typeof`/`Array.isArray`: a string leaf (possibly a `|`-joined
union), an array, a non-null object, or a predicate function. -/

/-- Embedded type-specs, one constructor per `walk` dispatch branch. -/
inductive Spec where
  | str (s : String)
  | list (elems : List Spec)
  | map (fields : List (String × Spec))
  | func (p : JSVal → Bool)

mutual

/-- `String(spec)`: how a composite spec is rendered when it is used as
the `type` label of a diagnostic (JS array-to-string joins with commas,
objects stringify as `[object Object]`; function source text is
abstracted, no claim observes it). -/
def specLabel : Spec → String
  | .str s => s
  | .list xs => specLabelList xs
  | .map _ => "[object Object]"
  | .func _ => "[function]"

def specLabelList : List Spec → String
  | [] => ""
  | [x] => specLabel x
  | x :: y :: rest => specLabel x ++ "," ++ specLabelList (y :: rest)

end

/-- The operator table keys (`operators` in `makeIsType`). -/
def isOperatorName (s : String) : Bool :=
  s == "$all" || s == "$every" || s == "$and" ||
  s == "$any" || s == "$some" || s == "$or" ||
  s == "$not" || s == "$tuple"

/-- `operators[t]` lookup for the head of a list-form spec: JS object
indexing stringifies the key, so a non-string head is looked up under
its `String(...)` rendering (e.g. the single-element array `["$all"]`
stringifies to `"$all"` and does name an operator). -/
def opNameOf : Spec → Option String
  | .str s => if isOperatorName s then some s else none
  | s => if isOperatorName (specLabel s) then some (specLabel s) else none

/-- The six outcome-dispatch modes: `is`, `is.not`, `assert.is`,
`assert.is.not`, `check.is`, `check.is.not`. -/
inductive Mode where
  | query
  | queryNot
  | assert
  | assertNot
  | check
  | checkNot
deriving DecidableEq, Repr

/-- The outcome callback `fn(ok, { type, value, path })` of each
dispatch mode (`src/unnamed/part_002` lines 237-273).  Returns the
callback's return value plus the warnings it printed, or the error it
threw:
* `is`      : `ok => ok`;
* `is.not`  : `ok => !ok`;
* `assert.is`    : throw `formatExpected` when `!ok`, else return `true`;
* `assert.is.not`: throw with type label `'not ' + type` when `ok`, else `true`;
* `check.is`     : warn `formatExpected` when `!ok`, return `ok`;
* `check.is.not` : warn (with the unmodified type label) when `ok`, return `!ok`. -/
def modeFn (m : Mode) (pfx : List String) (ok : Bool) (ty : String) (v : JSVal)
    (p : List String) : Except JSError (Bool × List String) :=
  match m with
  | .query => .ok (ok, [])
  | .queryNot => .ok (!ok, [])
  | .assert =>
    if ok then .ok (true, [])
    else .error (.jsError (formatExpected pfx ty v p))
  | .assertNot =>
    if ok then .error (.jsError (formatExpected pfx ("not " ++ ty) v p))
    else .ok (true, [])
  | .check =>
    .ok (ok, if ok then [] else [formatExpected pfx ty v p])
  | .checkNot =>
    .ok (!ok, if ok then [formatExpected pfx ty v p] else [])

/-- The TypeError thrown by the walker's configuration-error paths.
`walk` calls `throwMessage(options, msg)`, but `throwMessage`
destructures an `options` field from its first argument; the options
object has no such field, so `formatMessage` dereferences
`undefined.prefix` and a TypeError escapes instead of the intended
`Error(msg)` (the `msg` text is lost). -/
def cfgError : JSError := .typeError "Cannot read properties of undefined (reading 'prefix')"

/-- TypeError raised when the walker invokes `value.every(...)` (or
`type.every`/`type.some` for a non-array operand) on a value that is
not an array. -/
def everyError : JSError := .typeError "value.every is not a function"

/-- TypeError raised by `value[i]` when the value is `null` or
`undefined` (the `$tuple` operator does this for nullish values). -/
def indexError : JSError := .typeError "Cannot read properties of a nullish value"

/-- `value[k]` property access for the shape branch. -/
def jsGet (v : JSVal) (k : String) : JSVal :=
  match v with
  | .vObj _ fields => (List.lookup k fields).getD .vUndefined
  | .vArr l =>
    if k == "length" then .vNum (.ofInt (Int.ofNat l.length))
    else match parseNatStr k with
      | some i => l.getD i .vUndefined
      | none => .vUndefined
  | _ => .vUndefined

/-- `value[i]` element access for the `$tuple` operator: arrays index
their elements (`undefined` past the end), strings index their
characters, nullish values throw, other values yield `undefined`. -/
def jsIndex (v : JSVal) (i : Nat) : Except JSError JSVal :=
  match v with
  | .vNull => .error indexError
  | .vUndefined => .error indexError
  | .vArr l => .ok (l.getD i .vUndefined)
  | .vStr s =>
    .ok (match s.data.get? i with
      | some c => .vStr (String.mk [c])
      | none => .vUndefined)
  | .vObj _ fields => .ok ((List.lookup (toString i) fields).getD .vUndefined)
  | _ => .ok .vUndefined

/-- `typeof value === 'object' && value !== null` (the shape branch's
value guard; arrays pass it). -/
def jsIsObjectLike (v : JSVal) : Bool :=
  match v with
  | .vArr _ => true
  | .vObj _ _ => true
  | _ => false

/-- The `undot` transform in the configuration used by the claims: the
`undot` option is unset, so `makeIsType` uses the identity
(`src/unnamed/part_002` lines 176-179). -/
def undot (v : JSVal) : JSVal := v

/-- The leaf test: `type.split('|').some(t => typeCheckers[t]?.(value))`.
The split is modelled at the character level. -/
def splitPipe (s : String) : List String :=
  let rec go : List Char → List Char → List String
    | [], acc => [String.mk acc.reverse]
    | c :: rest, acc =>
      if c = '|' then String.mk acc.reverse :: go rest []
      else go rest (c :: acc)
  go s.data []

def leafOk (t : String) (v : JSVal) : Bool :=
  (splitPipe t).any (fun name =>
    match List.lookup name defaultTypeCheckers with
    | some c => c v
    | none => false)

/-!  The walker (`makeIsType`'s `walk`, `src/unnamed/part_002` lines
182-227).  An evaluation yields the boolean-or-thrown-error result, the
post-state of the (possibly shifted) spec, and the warnings printed.
The helpers below are parameterized by the continuation `w` standing
for the recursive `walk` at one unit less fuel, which keeps every
definition structurally recursive and hence kernel-reducible. -/

abbrev WRes := Except JSError Bool × Spec × List String

abbrev Wk := Mode → Spec → JSVal → List String → Option WRes

/-- Homogeneous-sequence branch body:
`value.every(v => walk(type[0], v, path))`.  The single inner spec is a
shared reference, so a mutation made while checking one element is
visible when the next element is checked: the post-spec is threaded. -/
def elemsGo (w : Wk) (m : Mode) (t : Spec) (vs : List JSVal) (p : List String) :
    Option WRes :=
  match vs with
  | [] => some (.ok true, t, [])
  | v :: rest =>
    match w m t v p with
    | none => none
    | some (.error e, t', ws) => some (.error e, t', ws)
    | some (.ok false, t', ws) => some (.ok false, t', ws)
    | some (.ok true, t', ws) =>
      match elemsGo w m t' rest p with
      | none => none
      | some (r, t'', ws2) => some (r, t'', ws ++ ws2)

/-- `$all`/`$every`/`$and`: `type.every((t, i) => walk(t, value, path))`;
conjunction over the operands against the same value and path,
short-circuiting on the first `false`. -/
def allGo (w : Wk) (m : Mode) (ops : List Spec) (v : JSVal) (p : List String) :
    Option (Except JSError Bool × List Spec × List String) :=
  match ops with
  | [] => some (.ok true, [], [])
  | t :: rest =>
    match w m t v p with
    | none => none
    | some (.error e, t', ws) => some (.error e, t' :: rest, ws)
    | some (.ok false, t', ws) => some (.ok false, t' :: rest, ws)
    | some (.ok true, t', ws) =>
      match allGo w m rest v p with
      | none => none
      | some (r, rest', ws2) => some (r, t' :: rest', ws ++ ws2)

/-- `$tuple`: `type.every((t, i) => walk(t, value[i], [...path, i]))`. -/
def tupleGo (w : Wk) (m : Mode) (ops : List Spec) (v : JSVal) (i : Nat)
    (p : List String) : Option (Except JSError Bool × List Spec × List String) :=
  match ops with
  | [] => some (.ok true, [], [])
  | t :: rest =>
    match jsIndex v i with
    | .error e => some (.error e, t :: rest, [])
    | .ok vi =>
      match w m t vi (p ++ [toString i]) with
      | none => none
      | some (.error e, t', ws) => some (.error e, t' :: rest, ws)
      | some (.ok false, t', ws) => some (.ok false, t' :: rest, ws)
      | some (.ok true, t', ws) =>
        match tupleGo w m rest v (i + 1) p with
        | none => none
        | some (r, rest', ws2) => some (r, t' :: rest', ws ++ ws2)

/-- `$any`/`$some`/`$or` probes:
`type.some((t, i) => ctx.is(t, value, path.join('.')))`.  Each probe is
the plain Query dispatcher `ctx.is` — whose outer callback is the
identity, so the probe is exactly a Query-mode walk whose initial path
is the single joined-path component — regardless of the operator's own
mode.  `some()` short-circuits on the first hit. -/
def someGo (w : Wk) (ops : List Spec) (v : JSVal) (d : String) :
    Option (Except JSError Bool × List Spec × List String) :=
  match ops with
  | [] => some (.ok false, [], [])
  | t :: rest =>
    match w .query t v [d] with
    | none => none
    | some (.error e, t', ws) => some (.error e, t' :: rest, ws)
    | some (.ok true, t', ws) => some (.ok true, t' :: rest, ws)
    | some (.ok false, t', ws) =>
      match someGo w rest v d with
      | none => none
      | some (r, rest', ws2) => some (r, t' :: rest', ws ++ ws2)

/-- `$not` probes:
`type.every((t, i) => ctx.is.not(t, value, path.join('.')))`.
`ctx.is.not` is the Query-negated dispatcher: a walk in Query-negated
mode whose final boolean is negated once more by the outer callback. -/
def notGo (w : Wk) (ops : List Spec) (v : JSVal) (d : String) :
    Option (Except JSError Bool × List Spec × List String) :=
  match ops with
  | [] => some (.ok true, [], [])
  | t :: rest =>
    match w .queryNot t v [d] with
    | none => none
    | some (.error e, t', ws) => some (.error e, t' :: rest, ws)
    | some (.ok b, t', ws) =>
      if !b then
        match notGo w rest v d with
        | none => none
        | some (r, rest', ws2) => some (r, t' :: rest', ws ++ ws2)
      else some (.ok false, t' :: rest, ws)

/-- Operator application (`operators[name](type, value, path)`):
dispatches on the operator keyword; `$any`-family and `$not` report
their aggregate once through the mode callback, labelled with the
stringified operand list. -/
def applyOp (w : Wk) (m : Mode) (pfx : List String) (name : String)
    (ops : List Spec) (v : JSVal) (p : List String) :
    Option (Except JSError Bool × List Spec × List String) :=
  if name == "$all" || name == "$every" || name == "$and" then allGo w m ops v p
  else if name == "$any" || name == "$some" || name == "$or" then
    match someGo w ops v (joinDots p) with
    | none => none
    | some (.error e, ops', ws) => some (.error e, ops', ws)
    | some (.ok agg, ops', ws) =>
      match modeFn m pfx agg (specLabelList ops') v p with
      | .error e => some (.error e, ops', ws)
      | .ok (b, ws2) => some (.ok b, ops', ws ++ ws2)
  else if name == "$not" then
    match notGo w ops v (joinDots p) with
    | none => none
    | some (.error e, ops', ws) => some (.error e, ops', ws)
    | some (.ok agg, ops', ws) =>
      match modeFn m pfx agg (specLabelList ops') v p with
      | .error e => some (.error e, ops', ws)
      | .ok (b, ws2) => some (.ok b, ops', ws ++ ws2)
  else if name == "$tuple" then tupleGo w m ops v 0 p
  else some (.error cfgError, ops, [])

/-- Shape-field conjunction:
`Object.keys(type).every(k => walk(type[k], v[k], [...path, k]))`,
threading the post-state of each visited field spec (fields after a
short-circuit are left unvisited, hence unchanged). -/
def fieldsGo (w : Wk) (m : Mode) (fields : List (String × Spec)) (vv : JSVal)
    (p : List String) : Option (Except JSError Bool × List (String × Spec) × List String) :=
  match fields with
  | [] => some (.ok true, [], [])
  | (k, fs) :: rest =>
    match w m fs (jsGet vv k) (p ++ [k]) with
    | none => none
    | some (.error e, fs', ws) => some (.error e, (k, fs') :: rest, ws)
    | some (.ok false, fs', ws) => some (.ok false, (k, fs') :: rest, ws)
    | some (.ok true, fs', ws) =>
      match fieldsGo w m rest vv p with
      | none => none
      | some (r, rest', ws2) => some (r, (k, fs') :: rest', ws ++ ws2)

/-- The recursive walker `walk(type, value, path)` of `makeIsType`,
parameterized by the dispatch mode (the outcome callback `fn`) and the
message prefix.  Branches, in source order:
* string leaf: `|`-union over registry lookups, reported once through
  the callback (`return false` when the callback's return is falsy,
  else return the test result);
* array of length 0: configuration error (`throwMessage`);
* array of length 1: homogeneous sequence — `value.every` is invoked
  without an array guard, so a non-array value raises a TypeError, and
  elements are checked at the unextended path;
* array of length ≥ 2: `type.shift()` consumes the head (mutating the
  spec), an unrecognized keyword is a configuration error, otherwise
  the operator is applied to the remaining operands;
* single-key object whose key is an operator keyword: operator applied
  to the keyed operand list (no shift);
* other objects: shape match — non-object values fail immediately
  without consulting the callback; otherwise each declared field is
  checked at the key-extended path;
* function: invoked directly, its result reported through the callback
  and the callback's return returned. -/
def walk : Nat → List String → Mode → Spec → JSVal → List String → Option WRes
  | 0, _, _, _, _, _ => none
  | Nat.succ n, pfx, m, s, v, p =>
    let w : Wk := fun m' s' v' p' => walk n pfx m' s' v' p'
    match s with
    | .str t =>
      let ok := leafOk t v
      match modeFn m pfx ok t v p with
      | .error e => some (.error e, .str t, [])
      | .ok (fb, ws) =>
        if fb then some (.ok ok, .str t, ws)
        else some (.ok false, .str t, ws)
    | .list [] => some (.error cfgError, .list [], [])
    | .list [t] =>
      match v with
      | .vArr vs =>
        (elemsGo w m t vs p).map (fun r => (r.1, Spec.list [r.2.1], r.2.2))
      | _ => some (.error everyError, .list [t], [])
    | .list (hd :: t2 :: rest) =>
      match opNameOf hd with
      | some name =>
        (applyOp w m pfx name (t2 :: rest) v p).map
          (fun r => (r.1, Spec.list r.2.1, r.2.2))
      | none => some (.error cfgError, .list (t2 :: rest), [])
    | .map [(k, operand)] =>
      if isOperatorName k then
        match operand with
        | .list ops =>
          (applyOp w m pfx k ops v p).map
            (fun r => (r.1, Spec.map [(k, Spec.list r.2.1)], r.2.2))
        | _ => some (.error everyError, .map [(k, operand)], [])
      else
        if jsIsObjectLike v then
          (fieldsGo w m [(k, operand)] (undot v) p).map
            (fun r => (r.1, Spec.map r.2.1, r.2.2))
        else some (.ok false, .map [(k, operand)], [])
    | .map fields =>
      if jsIsObjectLike v then
        (fieldsGo w m fields (undot v) p).map
          (fun r => (r.1, Spec.map r.2.1, r.2.2))
      else some (.ok false, .map fields, [])
    | .func pred =>
      match modeFn m pfx (pred v) (specLabel (.func pred)) v p with
      | .error e => some (.error e, .func pred, [])
      | .ok (b, ws) => some (.ok b, .func pred, ws)

/-- A dispatcher entry point built by `makeIs` (lines 229-234):
`(type, value, desc) => fn(isType(type, value, [desc ?? '']), { type,
value, path: [desc ?? ''] })` — the walk's final boolean is passed once
more through the mode's callback, labelled with the stringified
(post-walk) spec. -/
def dispatch (fuel : Nat) (m : Mode) (pfx : List String) (s : Spec) (v : JSVal)
    (desc : Option String) : Option WRes :=
  match walk fuel pfx m s v [desc.getD ""] with
  | none => none
  | some (.error e, s', ws) => some (.error e, s', ws)
  | some (.ok b, s', ws) =>
    match modeFn m pfx b (specLabel s') v [desc.getD ""] with
    | .error e => some (.error e, s', ws)
    | .ok (b2, ws2) => some (.ok b2, s', ws ++ ws2)

/-- A per-registry-name convenience entry (`isProto`, lines 168-174):
`isProto[type] = function (value, desc) { return this._fn(checker(value),
{ type, value, path: [desc ?? ''] }); }` — the stored checker is applied
directly and its verdict passed once through the dispatcher's callback.
The entry exists exactly for registry names, hence the `Option`. -/
def perName (m : Mode) (pfx : List String) (name : String) (v : JSVal)
    (desc : Option String) : Option (Except JSError Bool × List String) :=
  (List.lookup name defaultTypeCheckers).map (fun c =>
    match modeFn m pfx (c v) name v [desc.getD ""] with
    | .error e => (.error e, [])
    | .ok (b, ws) => (.ok b, ws))

/-!  Auxiliary definitions used by the theorems. -/

/-- Specs in which no list node of length at least two occurs anywhere —
exactly the specs on which `walk` never reaches a `type.shift()`.  This
is the sufficient no-mutation condition used below. -/
def shiftFree : Spec → Bool
  | .str _ => true
  | .func _ => true
  | .list [] => true
  | .list [t] => shiftFree t
  | .list (_ :: _ :: _) => false
  | .map [] => true
  | .map ((_, t) :: rest) => shiftFree t && shiftFree (.map rest)

/-- Projection of an evaluation to its result and post-spec, forgetting
the warnings (the check/query comparison is stated up to warnings). -/
def stripT (x : Option WRes) : Option (Except JSError Bool × Spec) :=
  x.map (fun r => (r.1, r.2.1))

/-- `stripT` for the operand-list-valued helpers. -/
def stripL (x : Option (Except JSError Bool × List Spec × List String)) :
    Option (Except JSError Bool × List Spec) :=
  x.map (fun r => (r.1, r.2.1))

/-- `stripT` for the field-list-valued shape helper. -/
def stripF (x : Option (Except JSError Bool × List (String × Spec) × List String)) :
    Option (Except JSError Bool × List (String × Spec)) :=
  x.map (fun r => (r.1, r.2.1))

/-- Projection of an evaluation to its result and warnings, forgetting
the post-spec (used to compare a generic dispatch with a per-name
entry, which has no spec to return). -/
def obsRW (x : Option WRes) : Option (Except JSError Bool × List String) :=
  x.map (fun r => (r.1, r.2.2))

/-- Modelled from the spec's words (amended for the counterexample):
positional tuple matching for leaf operands — operand `i` is tested
against `value[i]` (reading `undefined` past the end of the value), the
conjunction ranges over the operands only, so extra trailing value
elements are ignored. -/
def tupleMatches (names : List String) (l : List JSVal) (i : Nat) : Bool :=
  match names with
  | [] => true
  | t :: rest => leafOk t (l.getD i .vUndefined) && tupleMatches rest l (i + 1)

/-- The continuation preserves every shift-free spec it is run on. -/
def WkPreserves (w : Wk) : Prop :=
  ∀ m s v p r s' ws, shiftFree s = true → w m s v p = some (r, s', ws) → s' = s

/-- The continuation gives check-mode runs the same result and
post-spec as query-mode runs. -/
def WkCQ (w : Wk) : Prop :=
  ∀ s v p, stripT (w .check s v p) = stripT (w .query s v p)

/-!  Frame lemmas: specs without any length-two-or-more list node are
returned unchanged by every walk, in every mode. -/

theorem shiftFree_ops (ops : List Spec) (h : shiftFree (Spec.list ops) = true) :
    ∀ t ∈ ops, shiftFree t = true := by
  intro t ht
  cases ops with
  | nil => exact absurd ht (List.not_mem_nil t)
  | cons a as =>
    cases as with
    | nil =>
      have h1 : shiftFree a = true := by simpa [shiftFree] using h
      have := List.mem_singleton.mp ht
      subst this
      exact h1
    | cons b bs => simp [shiftFree] at h

theorem shiftFree_fields (fields : List (String × Spec))
    (h : shiftFree (Spec.map fields) = true) :
    ∀ kv ∈ fields, shiftFree kv.2 = true := by
  induction fields with
  | nil => intro kv hkv; exact absurd hkv (List.not_mem_nil kv)
  | cons a rest ih =>
    intro kv hkv
    obtain ⟨k, t⟩ := a
    have h' : shiftFree t = true ∧ shiftFree (Spec.map rest) = true := by
      simpa [shiftFree, Bool.and_eq_true] using h
    rcases List.mem_cons.mp hkv with he | hm
    · exact he ▸ h'.1
    · exact ih h'.2 kv hm

theorem elemsGo_pres (w : Wk) (hw : WkPreserves w) (m : Mode) (t : Spec)
    (p : List String) (h : shiftFree t = true) :
    ∀ vs r t' ws, elemsGo w m t vs p = some (r, t', ws) → t' = t := by
  intro vs
  induction vs with
  | nil =>
    intro r t' ws h2
    simp only [elemsGo, Option.some.injEq, Prod.mk.injEq] at h2
    exact h2.2.1.symm
  | cons v rest ih =>
    intro r t' ws h2
    rw [elemsGo] at h2
    cases hw0 : w m t v p with
    | none => rw [hw0] at h2; simp at h2
    | some x =>
      obtain ⟨r0, t0, ws0⟩ := x
      have ht0 : t0 = t := hw m t v p r0 t0 ws0 h hw0
      rw [hw0] at h2
      rw [ht0] at h2
      rcases r0 with e | b
      · simp only [Option.some.injEq, Prod.mk.injEq] at h2
        exact h2.2.1.symm
      · cases b with
        | false =>
          simp only [Option.some.injEq, Prod.mk.injEq] at h2
          exact h2.2.1.symm
        | true =>
          simp only [] at h2
          cases he : elemsGo w m t rest p with
          | none => rw [he] at h2; simp at h2
          | some y =>
            obtain ⟨r2, t2, ws2⟩ := y
            have ht2 : t2 = t := ih r2 t2 ws2 he
            rw [he] at h2
            simp only [Option.some.injEq, Prod.mk.injEq] at h2
            rw [← h2.2.1]
            exact ht2

theorem allGo_pres (w : Wk) (hw : WkPreserves w) (m : Mode) (v : JSVal) (p : List String) :
    ∀ ops, (∀ t ∈ ops, shiftFree t = true) →
    ∀ r ops' ws, allGo w m ops v p = some (r, ops', ws) → ops' = ops := by
  intro ops
  induction ops with
  | nil =>
    intro _ r ops' ws h2
    simp only [allGo, Option.some.injEq, Prod.mk.injEq] at h2
    exact h2.2.1.symm
  | cons t rest ih =>
    intro h r ops' ws h2
    have ht : shiftFree t = true := h t (List.mem_cons_self t rest)
    have hrest : ∀ u ∈ rest, shiftFree u = true :=
      fun u hu => h u (List.mem_cons_of_mem t hu)
    rw [allGo] at h2
    cases hw0 : w m t v p with
    | none => rw [hw0] at h2; simp at h2
    | some x =>
      obtain ⟨r0, t0, ws0⟩ := x
      have ht0 : t0 = t := hw m t v p r0 t0 ws0 ht hw0
      rw [hw0, ht0] at h2
      rcases r0 with e | b
      · simp only [Option.some.injEq, Prod.mk.injEq] at h2
        exact h2.2.1.symm
      · cases b with
        | false =>
          simp only [Option.some.injEq, Prod.mk.injEq] at h2
          exact h2.2.1.symm
        | true =>
          simp only [] at h2
          cases he : allGo w m rest v p with
          | none => rw [he] at h2; simp at h2
          | some y =>
            obtain ⟨r2, rest2, ws2⟩ := y
            have h3 : rest2 = rest := ih hrest r2 rest2 ws2 he
            rw [he] at h2
            simp only [Option.some.injEq, Prod.mk.injEq] at h2
            rw [← h2.2.1, h3]

theorem tupleGo_pres (w : Wk) (hw : WkPreserves w) (m : Mode) (v : JSVal) (p : List String) :
    ∀ ops, (∀ t ∈ ops, shiftFree t = true) →
    ∀ i r ops' ws, tupleGo w m ops v i p = some (r, ops', ws) → ops' = ops := by
  intro ops
  induction ops with
  | nil =>
    intro _ i r ops' ws h2
    simp only [tupleGo, Option.some.injEq, Prod.mk.injEq] at h2
    exact h2.2.1.symm
  | cons t rest ih =>
    intro h i r ops' ws h2
    have ht : shiftFree t = true := h t (List.mem_cons_self t rest)
    have hrest : ∀ u ∈ rest, shiftFree u = true :=
      fun u hu => h u (List.mem_cons_of_mem t hu)
    rw [tupleGo] at h2
    cases hji : jsIndex v i with
    | error e =>
      rw [hji] at h2
      simp only [Option.some.injEq, Prod.mk.injEq] at h2
      exact h2.2.1.symm
    | ok vi =>
      rw [hji] at h2
      simp only [] at h2
      cases hw0 : w m t vi (p ++ [toString i]) with
      | none => rw [hw0] at h2; simp at h2
      | some x =>
        obtain ⟨r0, t0, ws0⟩ := x
        have ht0 : t0 = t := hw m t vi (p ++ [toString i]) r0 t0 ws0 ht hw0
        rw [hw0, ht0] at h2
        rcases r0 with e | b
        · simp only [Option.some.injEq, Prod.mk.injEq] at h2
          exact h2.2.1.symm
        · cases b with
          | false =>
            simp only [Option.some.injEq, Prod.mk.injEq] at h2
            exact h2.2.1.symm
          | true =>
            simp only [] at h2
            cases he : tupleGo w m rest v (i + 1) p with
            | none => rw [he] at h2; simp at h2
            | some y =>
              obtain ⟨r2, rest2, ws2⟩ := y
              have h3 : rest2 = rest := ih hrest (i + 1) r2 rest2 ws2 he
              rw [he] at h2
              simp only [Option.some.injEq, Prod.mk.injEq] at h2
              rw [← h2.2.1, h3]

theorem someGo_pres (w : Wk) (hw : WkPreserves w) (v : JSVal) (d : String) :
    ∀ ops, (∀ t ∈ ops, shiftFree t = true) →
    ∀ r ops' ws, someGo w ops v d = some (r, ops', ws) → ops' = ops := by
  intro ops
  induction ops with
  | nil =>
    intro _ r ops' ws h2
    simp only [someGo, Option.some.injEq, Prod.mk.injEq] at h2
    exact h2.2.1.symm
  | cons t rest ih =>
    intro h r ops' ws h2
    have ht : shiftFree t = true := h t (List.mem_cons_self t rest)
    have hrest : ∀ u ∈ rest, shiftFree u = true :=
      fun u hu => h u (List.mem_cons_of_mem t hu)
    rw [someGo] at h2
    cases hw0 : w .query t v [d] with
    | none => rw [hw0] at h2; simp at h2
    | some x =>
      obtain ⟨r0, t0, ws0⟩ := x
      have ht0 : t0 = t := hw .query t v [d] r0 t0 ws0 ht hw0
      rw [hw0, ht0] at h2
      rcases r0 with e | b
      · simp only [Option.some.injEq, Prod.mk.injEq] at h2
        exact h2.2.1.symm
      · cases b with
        | true =>
          simp only [Option.some.injEq, Prod.mk.injEq] at h2
          exact h2.2.1.symm
        | false =>
          simp only [] at h2
          cases he : someGo w rest v d with
          | none => rw [he] at h2; simp at h2
          | some y =>
            obtain ⟨r2, rest2, ws2⟩ := y
            have h3 : rest2 = rest := ih hrest r2 rest2 ws2 he
            rw [he] at h2
            simp only [Option.some.injEq, Prod.mk.injEq] at h2
            rw [← h2.2.1, h3]

theorem notGo_pres (w : Wk) (hw : WkPreserves w) (v : JSVal) (d : String) :
    ∀ ops, (∀ t ∈ ops, shiftFree t = true) →
    ∀ r ops' ws, notGo w ops v d = some (r, ops', ws) → ops' = ops := by
  intro ops
  induction ops with
  | nil =>
    intro _ r ops' ws h2
    simp only [notGo, Option.some.injEq, Prod.mk.injEq] at h2
    exact h2.2.1.symm
  | cons t rest ih =>
    intro h r ops' ws h2
    have ht : shiftFree t = true := h t (List.mem_cons_self t rest)
    have hrest : ∀ u ∈ rest, shiftFree u = true :=
      fun u hu => h u (List.mem_cons_of_mem t hu)
    rw [notGo] at h2
    cases hw0 : w .queryNot t v [d] with
    | none => rw [hw0] at h2; simp at h2
    | some x =>
      obtain ⟨r0, t0, ws0⟩ := x
      have ht0 : t0 = t := hw .queryNot t v [d] r0 t0 ws0 ht hw0
      rw [hw0, ht0] at h2
      rcases r0 with e | b
      · simp only [Option.some.injEq, Prod.mk.injEq] at h2
        exact h2.2.1.symm
      · cases b with
        | true =>
          simp only [Bool.not_true, Bool.false_eq_true, if_false,
            Option.some.injEq, Prod.mk.injEq] at h2
          exact h2.2.1.symm
        | false =>
          simp only [Bool.not_false, if_true] at h2
          cases he : notGo w rest v d with
          | none => rw [he] at h2; simp at h2
          | some y =>
            obtain ⟨r2, rest2, ws2⟩ := y
            have h3 : rest2 = rest := ih hrest r2 rest2 ws2 he
            rw [he] at h2
            simp only [Option.some.injEq, Prod.mk.injEq] at h2
            rw [← h2.2.1, h3]

theorem fieldsGo_pres (w : Wk) (hw : WkPreserves w) (m : Mode) (vv : JSVal) (p : List String) :
    ∀ fields, (∀ kv ∈ fields, shiftFree kv.2 = true) →
    ∀ r fields' ws, fieldsGo w m fields vv p = some (r, fields', ws) → fields' = fields := by
  intro fields
  induction fields with
  | nil =>
    intro _ r fields' ws h2
    simp only [fieldsGo, Option.some.injEq, Prod.mk.injEq] at h2
    exact h2.2.1.symm
  | cons kv rest ih =>
    obtain ⟨k, fs⟩ := kv
    intro h r fields' ws h2
    have ht : shiftFree fs = true := h (k, fs) (List.mem_cons_self (k, fs) rest)
    have hrest : ∀ u ∈ rest, shiftFree u.2 = true :=
      fun u hu => h u (List.mem_cons_of_mem (k, fs) hu)
    rw [fieldsGo] at h2
    cases hw0 : w m fs (jsGet vv k) (p ++ [k]) with
    | none => rw [hw0] at h2; simp at h2
    | some x =>
      obtain ⟨r0, t0, ws0⟩ := x
      have ht0 : t0 = fs := hw m fs (jsGet vv k) (p ++ [k]) r0 t0 ws0 ht hw0
      rw [hw0, ht0] at h2
      rcases r0 with e | b
      · simp only [Option.some.injEq, Prod.mk.injEq] at h2
        exact h2.2.1.symm
      · cases b with
        | false =>
          simp only [Option.some.injEq, Prod.mk.injEq] at h2
          exact h2.2.1.symm
        | true =>
          simp only [] at h2
          cases he : fieldsGo w m rest vv p with
          | none => rw [he] at h2; simp at h2
          | some y =>
            obtain ⟨r2, rest2, ws2⟩ := y
            have h3 : rest2 = rest := ih hrest r2 rest2 ws2 he
            rw [he] at h2
            simp only [Option.some.injEq, Prod.mk.injEq] at h2
            rw [← h2.2.1, h3]

theorem applyOp_pres (w : Wk) (hw : WkPreserves w) (m : Mode) (pfx : List String)
    (name : String) (v : JSVal) (p : List String) :
    ∀ ops, (∀ t ∈ ops, shiftFree t = true) →
    ∀ r ops' ws, applyOp w m pfx name ops v p = some (r, ops', ws) → ops' = ops := by
  intro ops h r ops' ws h2
  rw [applyOp] at h2
  split at h2
  · exact allGo_pres w hw m v p ops h r ops' ws h2
  · split at h2
    · cases hsg : someGo w ops v (joinDots p) with
      | none => rw [hsg] at h2; simp at h2
      | some x =>
        obtain ⟨r0, ops0, ws0⟩ := x
        have h0 : ops0 = ops := someGo_pres w hw v (joinDots p) ops h r0 ops0 ws0 hsg
        rw [hsg, h0] at h2
        rcases r0 with e | agg
        · simp only [Option.some.injEq, Prod.mk.injEq] at h2
          exact h2.2.1.symm
        · simp only [] at h2
          cases hmf : modeFn m pfx agg (specLabelList ops) v p with
          | error e =>
            rw [hmf] at h2
            simp only [Option.some.injEq, Prod.mk.injEq] at h2
            exact h2.2.1.symm
          | ok y =>
            obtain ⟨b, ws2⟩ := y
            rw [hmf] at h2
            simp only [Option.some.injEq, Prod.mk.injEq] at h2
            exact h2.2.1.symm
    · split at h2
      · cases hng : notGo w ops v (joinDots p) with
        | none => rw [hng] at h2; simp at h2
        | some x =>
          obtain ⟨r0, ops0, ws0⟩ := x
          have h0 : ops0 = ops := notGo_pres w hw v (joinDots p) ops h r0 ops0 ws0 hng
          rw [hng, h0] at h2
          rcases r0 with e | agg
          · simp only [Option.some.injEq, Prod.mk.injEq] at h2
            exact h2.2.1.symm
          · simp only [] at h2
            cases hmf : modeFn m pfx agg (specLabelList ops) v p with
            | error e =>
              rw [hmf] at h2
              simp only [Option.some.injEq, Prod.mk.injEq] at h2
              exact h2.2.1.symm
            | ok y =>
              obtain ⟨b, ws2⟩ := y
              rw [hmf] at h2
              simp only [Option.some.injEq, Prod.mk.injEq] at h2
              exact h2.2.1.symm
      · split at h2
        · exact tupleGo_pres w hw m v p ops h 0 r ops' ws h2
        · simp only [Option.some.injEq, Prod.mk.injEq] at h2
          exact h2.2.1.symm

theorem walk_pres (pfx : List String) :
    ∀ n : Nat, WkPreserves (fun m s v p => walk n pfx m s v p) := by
  intro n
  induction n with
  | zero =>
    intro m s v p r s' ws _ h2
    simp [walk] at h2
  | succ n ih =>
    intro m s v p r s' ws h h2
    cases s with
    | str t =>
      simp only [walk] at h2
      cases hmf : modeFn m pfx (leafOk t v) t v p with
      | error e =>
        rw [hmf] at h2
        simp only [Option.some.injEq, Prod.mk.injEq] at h2
        exact h2.2.1.symm
      | ok x =>
        obtain ⟨fb, ws0⟩ := x
        rw [hmf] at h2
        cases fb with
        | false =>
          simp only [Bool.false_eq_true, if_false, Option.some.injEq, Prod.mk.injEq] at h2
          exact h2.2.1.symm
        | true =>
          simp only [if_true, Option.some.injEq, Prod.mk.injEq] at h2
          exact h2.2.1.symm
    | list elems =>
      cases elems with
      | nil =>
        simp only [walk, Option.some.injEq, Prod.mk.injEq] at h2
        exact h2.2.1.symm
      | cons t1 ts =>
        cases ts with
        | nil =>
          have ht1 : shiftFree t1 = true := by simpa [shiftFree] using h
          cases v with
          | vArr vs =>
            simp only [walk] at h2
            cases heg : elemsGo (fun m' s' v' p' => walk n pfx m' s' v' p') m t1 vs p with
            | none => rw [heg] at h2; simp at h2
            | some y =>
              obtain ⟨r0, t0, ws0⟩ := y
              have ht0 : t0 = t1 :=
                elemsGo_pres _ ih m t1 p ht1 vs r0 t0 ws0 heg
              rw [heg] at h2
              simp only [Option.map_some', Option.some.injEq, Prod.mk.injEq] at h2
              rw [← h2.2.1, ht0]
          | vNull =>
            simp only [walk, Option.some.injEq, Prod.mk.injEq] at h2
            exact h2.2.1.symm
          | vUndefined =>
            simp only [walk, Option.some.injEq, Prod.mk.injEq] at h2
            exact h2.2.1.symm
          | vBool b =>
            simp only [walk, Option.some.injEq, Prod.mk.injEq] at h2
            exact h2.2.1.symm
          | vNum nn =>
            simp only [walk, Option.some.injEq, Prod.mk.injEq] at h2
            exact h2.2.1.symm
          | vStr str =>
            simp only [walk, Option.some.injEq, Prod.mk.injEq] at h2
            exact h2.2.1.symm
          | vBigInt i =>
            simp only [walk, Option.some.injEq, Prod.mk.injEq] at h2
            exact h2.2.1.symm
          | vSym d =>
            simp only [walk, Option.some.injEq, Prod.mk.injEq] at h2
            exact h2.2.1.symm
          | vFun nm a =>
            simp only [walk, Option.some.injEq, Prod.mk.injEq] at h2
            exact h2.2.1.symm
          | vObj c fl =>
            simp only [walk, Option.some.injEq, Prod.mk.injEq] at h2
            exact h2.2.1.symm
        | cons t2 ts2 =>
          simp [shiftFree] at h
    | map fields =>
      cases fields with
      | nil =>
        simp only [walk] at h2
        by_cases hov : jsIsObjectLike v = true
        · rw [if_pos hov] at h2
          simp only [fieldsGo, Option.map_some', Option.some.injEq, Prod.mk.injEq] at h2
          exact h2.2.1.symm
        · rw [if_neg hov] at h2
          simp only [Option.some.injEq, Prod.mk.injEq] at h2
          exact h2.2.1.symm
      | cons kv rest =>
        obtain ⟨k, operand⟩ := kv
        cases rest with
        | nil =>
          simp only [walk] at h2
          by_cases hop : isOperatorName k = true
          · rw [if_pos hop] at h2
            cases operand with
            | list ops =>
              simp only [] at h2
              have hops : ∀ t ∈ ops, shiftFree t = true := by
                apply shiftFree_ops
                have := shiftFree_fields [(k, Spec.list ops)] h (k, Spec.list ops)
                  (List.mem_singleton.mpr rfl)
                exact this
              cases hao : applyOp (fun m' s' v' p' => walk n pfx m' s' v' p') m pfx k ops v p with
              | none => rw [hao] at h2; simp at h2
              | some y =>
                obtain ⟨r0, ops0, ws0⟩ := y
                have h0 : ops0 = ops :=
                  applyOp_pres _ ih m pfx k v p ops hops r0 ops0 ws0 hao
                rw [hao] at h2
                simp only [Option.map_some', Option.some.injEq, Prod.mk.injEq] at h2
                rw [← h2.2.1, h0]
            | str ss =>
              simp only [Option.some.injEq, Prod.mk.injEq] at h2
              exact h2.2.1.symm
            | map mf =>
              simp only [Option.some.injEq, Prod.mk.injEq] at h2
              exact h2.2.1.symm
            | func pr =>
              simp only [Option.some.injEq, Prod.mk.injEq] at h2
              exact h2.2.1.symm
          · rw [if_neg hop] at h2
            by_cases hov : jsIsObjectLike v = true
            · rw [if_pos hov] at h2
              cases hfg : fieldsGo (fun m' s' v' p' => walk n pfx m' s' v' p') m
                  [(k, operand)] (undot v) p with
              | none => rw [hfg] at h2; simp at h2
              | some y =>
                obtain ⟨r0, f0, ws0⟩ := y
                have h0 : f0 = [(k, operand)] :=
                  fieldsGo_pres _ ih m (undot v) p [(k, operand)]
                    (shiftFree_fields _ h) r0 f0 ws0 hfg
                rw [hfg] at h2
                simp only [Option.map_some', Option.some.injEq, Prod.mk.injEq] at h2
                rw [← h2.2.1, h0]
            · rw [if_neg hov] at h2
              simp only [Option.some.injEq, Prod.mk.injEq] at h2
              exact h2.2.1.symm
        | cons kv2 rest2 =>
          simp only [walk] at h2
          by_cases hov : jsIsObjectLike v = true
          · rw [if_pos hov] at h2
            cases hfg : fieldsGo (fun m' s' v' p' => walk n pfx m' s' v' p') m
                ((k, operand) :: kv2 :: rest2) (undot v) p with
            | none => rw [hfg] at h2; simp at h2
            | some y =>
              obtain ⟨r0, f0, ws0⟩ := y
              have h0 : f0 = (k, operand) :: kv2 :: rest2 :=
                fieldsGo_pres _ ih m (undot v) p ((k, operand) :: kv2 :: rest2)
                  (shiftFree_fields _ h) r0 f0 ws0 hfg
              rw [hfg] at h2
              simp only [Option.map_some', Option.some.injEq, Prod.mk.injEq] at h2
              rw [← h2.2.1, h0]
          · rw [if_neg hov] at h2
            simp only [Option.some.injEq, Prod.mk.injEq] at h2
            exact h2.2.1.symm
    | func pred =>
      simp only [walk] at h2
      cases hmf : modeFn m pfx (pred v) (specLabel (.func pred)) v p with
      | error e =>
        rw [hmf] at h2
        simp only [Option.some.injEq, Prod.mk.injEq] at h2
        exact h2.2.1.symm
      | ok x =>
        obtain ⟨b, ws0⟩ := x
        rw [hmf] at h2
        simp only [Option.some.injEq, Prod.mk.injEq] at h2
        exact h2.2.1.symm

/-!  Claim theorems. -/

/-- C1, counterexample.  The claim says matching leaves an operator spec
given in list form `[opName, ...operands]` with its length and elements
intact.  In fact a plain query `is(["$all", "string"], "x")` succeeds
but leaves the spec as `["string"]`: `type.shift()` (line 202) removed
the operator name, so the post-spec has length 1, not 2. -/
theorem c1_shift_counterexample :
    dispatch 3 .query [] (Spec.list [Spec.str "$all", Spec.str "string"])
        (JSVal.vStr "x") none =
      some (.ok true, Spec.list [Spec.str "string"], []) ∧
    Spec.list [Spec.str "string"] ≠ Spec.list [Spec.str "$all", Spec.str "string"] := by
  constructor
  · rfl
  · intro h
    simp only [Spec.list.injEq, List.cons.injEq] at h
    exact List.noConfusion h.2

/-- C1, amended.  Matching never mutates the value (the model is pure
because the source never writes to the value; `undot` would copy), and
it leaves every spec containing no list node of length two or more
unchanged, in every dispatch mode; only list-form operator nodes are
mutated, by having their leading operator name consumed. -/
theorem c1_shiftFree_preserved : ∀ (fuel : Nat) (m : Mode) (pfx : List String)
    (s : Spec) (v : JSVal) (d : Option String) (r : Except JSError Bool)
    (s' : Spec) (ws : List String), shiftFree s = true →
    dispatch fuel m pfx s v d = some (r, s', ws) → s' = s := by
  intro fuel m pfx s v d r s' ws h h2
  rw [dispatch] at h2
  cases hwk : walk fuel pfx m s v [d.getD ""] with
  | none => rw [hwk] at h2; simp at h2
  | some x =>
    obtain ⟨r0, s0, ws0⟩ := x
    have h0 : s0 = s := walk_pres pfx fuel m s v [d.getD ""] r0 s0 ws0 h hwk
    rw [hwk] at h2
    rcases r0 with e | b
    · simp only [Option.some.injEq, Prod.mk.injEq] at h2
      rw [← h2.2.1]
      exact h0
    · simp only [] at h2
      cases hmf : modeFn m pfx b (specLabel s0) v [d.getD ""] with
      | error e =>
        rw [hmf] at h2
        simp only [Option.some.injEq, Prod.mk.injEq] at h2
        rw [← h2.2.1]
        exact h0
      | ok y =>
        obtain ⟨b2, ws2⟩ := y
        rw [hmf] at h2
        simp only [Option.some.injEq, Prod.mk.injEq] at h2
        rw [← h2.2.1]
        exact h0

/-- C1, witness for the amended theorem. -/
theorem c1_shiftFree_preserved_witness :
    shiftFree (Spec.str "string") = true ∧ Spec.str "string" = Spec.str "string" :=
  ⟨by simp [shiftFree],
   c1_shiftFree_preserved 1 .query [] (Spec.str "string") (JSVal.vNum (.ofInt 1))
     none (.ok false) (Spec.str "string") [] (by simp [shiftFree]) rfl⟩

/-- A Query-mode walk of a string leaf returns the registry test's
verdict, leaves the spec unchanged and warns nothing. -/
theorem walk_query_leaf (n : Nat) (pfx : List String) (t : String) (v : JSVal)
    (p : List String) :
    walk (n + 1) pfx .query (.str t) v p = some (.ok (leafOk t v), .str t, []) := by
  cases h : leafOk t v <;> simp [walk, modeFn, h]

/-- C2.  The claim says `assert.is.not(s, v)` raises iff `is(s, v)` is
true, and in particular does not raise on a multi-field shape where one
field matches and another does not.  In fact the negated-assert
callback runs at every leaf, so for the shape
`{a: "string", b: "number"}` and the value `{a: "x", b: "y"}` the plain
query is false, yet the negated assertion throws on the matching leaf
`a`. -/
theorem c2_assertNot_raises_on_nonmatching_shape :
    dispatch 2 .query [] (Spec.map [("a", Spec.str "string"), ("b", Spec.str "number")])
        (JSVal.vObj "Object" [("a", JSVal.vStr "x"), ("b", JSVal.vStr "y")]) none =
      some (.ok false, Spec.map [("a", Spec.str "string"), ("b", Spec.str "number")], []) ∧
    dispatch 2 .assertNot [] (Spec.map [("a", Spec.str "string"), ("b", Spec.str "number")])
        (JSVal.vObj "Object" [("a", JSVal.vStr "x"), ("b", JSVal.vStr "y")]) none =
      some (.error (.jsError (formatExpected [] ("not " ++ "string") (JSVal.vStr "x") ["", "a"])),
        Spec.map [("a", Spec.str "string"), ("b", Spec.str "number")], []) :=
  ⟨rfl, rfl⟩

/-- C3.  The claim says `is.not(s, v)` is the logical negation of
`is(s, v)`, applied once at the outermost call; its own example is the
shape `{a: "string"}` against a value whose field `a` is a string,
where it says `is.not` returns false.  In fact the negating callback is
also consulted at every leaf (its falsy return short-circuits the
conjunction), so both `is` and `is.not` return true there: `is.not` is
not the negation of `is`. -/
theorem c3_isNot_not_negation :
    dispatch 2 .queryNot [] (Spec.map [("a", Spec.str "string")])
        (JSVal.vObj "Object" [("a", JSVal.vStr "x")]) none =
      some (.ok true, Spec.map [("a", Spec.str "string")], []) ∧
    dispatch 2 .query [] (Spec.map [("a", Spec.str "string")])
        (JSVal.vObj "Object" [("a", JSVal.vStr "x")]) none =
      some (.ok true, Spec.map [("a", Spec.str "string")], []) ∧
    (Except.ok true : Except JSError Bool) ≠ .ok false := by
  refine ⟨rfl, rfl, ?_⟩
  intro h
  exact Bool.noConfusion (Except.ok.inj h)

/-- C4.  The claim says `is([s], v)` returns false for a non-array
value, without raising, and checks elements at the index-extended path.
In this revision of the walker the `Array.isArray(value)` guard of
`src/with-type-checkers.js` was lost: the homogeneous branch calls
`value.every(...)` directly, so `is(["string"], 42)` raises a TypeError
instead of returning false (and elements are walked at the unextended
path). -/
theorem c4_homogeneous_nonarray_raises :
    dispatch 2 .query [] (Spec.list [Spec.str "string"]) (JSVal.vNum (.ofInt 42)) none =
      some (.error everyError, Spec.list [Spec.str "string"], []) :=
  rfl

/-- C5.  Configuration errors: the empty-list spec `[]` and a list-form
operator spec with an unrecognized keyword raise immediately, in every
dispatch mode and for every value — the error is thrown before the
value is inspected and without consulting the outcome callback, so it
is never turned into a boolean validation failure.  (The raised error
is a TypeError escaping the broken `throwMessage(options, msg)` call,
but an error is raised all the same.) -/
theorem c5_config_errors_always_raise :
    ∀ (fuel : Nat) (m : Mode) (pfx : List String) (v v2 : JSVal) (d : Option String)
      (name : String) (rest : List Spec),
    isOperatorName name = false → rest ≠ [] →
    dispatch (fuel + 1) m pfx (Spec.list []) v d =
      some (.error cfgError, Spec.list [], []) ∧
    dispatch (fuel + 1) m pfx (Spec.list (Spec.str name :: rest)) v2 d =
      some (.error cfgError, Spec.list rest, []) := by
  intro fuel m pfx v v2 d name rest hname hrest
  constructor
  · have hw : walk (fuel + 1) pfx m (Spec.list []) v [d.getD ""] =
        some (.error cfgError, Spec.list [], []) := by
      rw [walk]
    rw [dispatch, hw]
  · cases rest with
    | nil => exact absurd rfl hrest
    | cons r1 rs =>
      have hw : walk (fuel + 1) pfx m (Spec.list (Spec.str name :: r1 :: rs)) v2 [d.getD ""] =
          some (.error cfgError, Spec.list (r1 :: rs), []) := by
        rw [walk]
        simp [opNameOf, hname]
      rw [dispatch, hw]

/-- C5, witness. -/
theorem c5_config_errors_always_raise_witness :
    dispatch 1 .check [] (Spec.list []) (JSVal.vNum (.ofInt 1)) none =
      some (.error cfgError, Spec.list [], []) ∧
    dispatch 1 .check [] (Spec.list [Spec.str "$foo", Spec.str "string"])
        (JSVal.vStr "a") none =
      some (.error cfgError, Spec.list [Spec.str "string"], []) := by
  have h := c5_config_errors_always_raise 0 .check [] (JSVal.vNum (.ofInt 1))
    (JSVal.vStr "a") none "$foo" [Spec.str "string"] (by decide) (by simp)
  exact ⟨h.1, h.2⟩

/-- C6, counterexample.  The claim says any length mismatch between the
`$tuple` operand list and the value fails the match, including a value
with extra trailing elements such as
`{$tuple: ["string", "number"]}` against `["x", 1, 2]`.  In fact
`$tuple` iterates the operands only, so the extra element is ignored
and the match succeeds. -/
theorem c6_tuple_extra_elements_match :
    dispatch 3 .query []
        (Spec.map [("$tuple", Spec.list [Spec.str "string", Spec.str "number"])])
        (JSVal.vArr [JSVal.vStr "x", JSVal.vNum (.ofInt 1), JSVal.vNum (.ofInt 2)]) none =
      some (.ok true,
        Spec.map [("$tuple", Spec.list [Spec.str "string", Spec.str "number"])], []) ∧
    (Except.ok true : Except JSError Bool) ≠ .ok false := by
  refine ⟨rfl, ?_⟩
  intro h
  exact Bool.noConfusion (Except.ok.inj h)

/-- `$tuple` over leaf operands and an array value: the positional
conjunction of `tupleMatches`. -/
theorem tupleGo_query_leaves (n : Nat) (pfx : List String) (l : List JSVal)
    (p : List String) :
    ∀ (names : List String) (i : Nat),
    tupleGo (fun m' s' v' p' => walk (n + 1) pfx m' s' v' p') .query
        (names.map Spec.str) (JSVal.vArr l) i p =
      some (.ok (tupleMatches names l i), names.map Spec.str, []) := by
  intro names
  induction names with
  | nil => intro i; rfl
  | cons t rest ih =>
    intro i
    simp only [List.map_cons]
    rw [tupleGo]
    have hji : jsIndex (JSVal.vArr l) i = .ok (l.getD i JSVal.vUndefined) := rfl
    rw [hji]
    simp only []
    rw [walk_query_leaf]
    cases hlo : leafOk t (l.getD i JSVal.vUndefined) with
    | false =>
      simp only [tupleMatches, hlo, Bool.false_and]
    | true =>
      simp only []
      rw [ih (i + 1)]
      simp only [tupleMatches, hlo, Bool.true_and, List.nil_append]

/-- C6, amended.  For the tuple operator over leaf operands, matching
against a sequence value checks operand `i` against `value[i]` at path
`[...path, i]`; positions past the end of the value are read as
`undefined` (so a too-short value fails whenever its missing positions
fail their operand specs), while extra trailing value elements are
ignored rather than failing: the query returns exactly the positional
conjunction over the operand list. -/
theorem c6_tuple_positional :
    ∀ (fuel : Nat) (pfx : List String) (names : List String) (l : List JSVal)
      (d : Option String),
    dispatch (fuel + 2) .query pfx
        (Spec.map [("$tuple", Spec.list (names.map Spec.str))]) (JSVal.vArr l) d =
      some (.ok (tupleMatches names l 0),
        Spec.map [("$tuple", Spec.list (names.map Spec.str))], []) := by
  intro fuel pfx names l d
  have happ : applyOp (fun m' s' v' p' => walk (fuel + 1) pfx m' s' v' p') .query pfx
      "$tuple" (names.map Spec.str) (JSVal.vArr l) [d.getD ""] =
      some (.ok (tupleMatches names l 0), names.map Spec.str, []) := by
    rw [show (applyOp (fun m' s' v' p' => walk (fuel + 1) pfx m' s' v' p') .query pfx
        "$tuple" (names.map Spec.str) (JSVal.vArr l) [d.getD ""]) =
        (tupleGo (fun m' s' v' p' => walk (fuel + 1) pfx m' s' v' p') .query
          (names.map Spec.str) (JSVal.vArr l) 0 [d.getD ""]) from rfl]
    exact tupleGo_query_leaves fuel pfx l [d.getD ""] names 0
  have hw : walk (fuel + 2) pfx .query
      (Spec.map [("$tuple", Spec.list (names.map Spec.str))]) (JSVal.vArr l) [d.getD ""] =
      some (.ok (tupleMatches names l 0),
        Spec.map [("$tuple", Spec.list (names.map Spec.str))], []) := by
    rw [walk]
    simp only [show isOperatorName "$tuple" = true from rfl, if_true, happ,
      Option.map_some']
  rw [dispatch, hw]
  rfl

/-- C8, counterexample.  The claim says every per-name entry is
observably equivalent to the generic entry of the same mode on the
string leaf spec of that name.  For the Query-negated mode this fails:
`is.not.string("x")` applies the negating callback once and returns
false, while the generic `is.not("string", "x")` applies it per leaf
and again at the outermost call and returns true. -/
theorem c8_perName_not_equivalent :
    obsRW (dispatch 1 .queryNot [] (Spec.str "string") (JSVal.vStr "x") none) =
      some (.ok true, []) ∧
    perName .queryNot [] "string" (JSVal.vStr "x") none = some (.ok false, []) ∧
    (some ((Except.ok true : Except JSError Bool), ([] : List String)) ≠
      some ((Except.ok false : Except JSError Bool), ([] : List String))) := by
  refine ⟨rfl, rfl, ?_⟩
  intro h
  exact Bool.noConfusion (Except.ok.inj (Prod.mk.injEq .. ▸ (Option.some.inj h)).1)

/-- C8, amended.  For the Query, Assert and Assert-negated modes the
per-name convenience entry is observably equivalent to the generic
entry on the string leaf spec of the name: same returned value, same
raised error with the same message, same (empty) warnings.  (For the
Query-negated, Check and Check-negated modes the two entry points
diverge: the generic negated queries return true whenever the leaf test
passes, and the generic `check.is` prints the failure warning twice.) -/
theorem c8_perName_equiv_positive :
    ∀ (m : Mode) (pfx : List String) (nm : String) (c : JSVal → Bool) (v : JSVal)
      (d : Option String) (fuel : Nat),
    List.lookup nm defaultTypeCheckers = some c →
    splitPipe nm = [nm] →
    (m = .query ∨ m = .assert ∨ m = .assertNot) →
    obsRW (dispatch (fuel + 1) m pfx (Spec.str nm) v d) = perName m pfx nm v d := by
  intro m pfx nm c v d fuel hc hsplit hm
  have hleaf : leafOk nm v = c v := by
    rw [leafOk, hsplit]
    simp [hc]
  rcases hm with rfl | rfl | rfl <;>
    cases hcv : c v <;>
      simp [dispatch, walk, perName, obsRW, modeFn, hleaf, hc, hcv]

/-- C8, witness for the amended equivalence. -/
theorem c8_perName_equiv_positive_witness :
    obsRW (dispatch 1 .assert [] (Spec.str "string") (JSVal.vStr "ok") none) =
      perName .assert [] "string" (JSVal.vStr "ok") none :=
  c8_perName_equiv_positive .assert [] "string"
    (fun v => match v with | .vStr _ => true | _ => false) (JSVal.vStr "ok") none 0
    rfl rfl (Or.inr (Or.inl rfl))

/-- C9.  `formatValue` renders strings of length at most 32 in full as
`[string "<text>"]`, truncates longer strings to their first 29
characters followed by `...` and the original length in parentheses,
and renders negative zero as `[number -0]`, distinct from positive
zero's `[number 0]`. -/
theorem c9_formatValue_rendering :
    (∀ s : String,
      (jsLen s ≤ 32 → formatValue (.vStr s) = "[string \"" ++ s ++ "\"]") ∧
      (32 < jsLen s → formatValue (.vStr s) =
        "[string \"" ++ jsSlice s 29 ++ "...\" (" ++ toString (jsLen s) ++ ")]")) ∧
    formatValue (.vNum .negZero) = "[number -0]" ∧
    formatValue (.vNum (.ofInt 0)) = "[number 0]" ∧
    formatValue (.vNum .negZero) ≠ formatValue (.vNum (.ofInt 0)) := by
  refine ⟨fun s => ⟨fun h => ?_, fun h => ?_⟩, rfl, rfl, by decide⟩
  · simp only [formatValue]
    rw [if_pos h]
  · simp only [formatValue]
    rw [if_neg (by omega)]

/-- C9, witness: a 40-character string is truncated with a marker and
length annotation. -/
theorem c9_formatValue_rendering_witness :
    formatValue (.vStr "aaaaaaaaaaaaaaaaaaaaaaaaaaaaaaaaaaaaaaaa") =
      "[string \"" ++ jsSlice "aaaaaaaaaaaaaaaaaaaaaaaaaaaaaaaaaaaaaaaa" 29 ++
        "...\" (" ++ toString (jsLen "aaaaaaaaaaaaaaaaaaaaaaaaaaaaaaaaaaaaaaaa") ++ ")]" :=
  (c9_formatValue_rendering.1 _).2 (by decide)

/-- An unregistered union: every component fails its lookup, so the
leaf test is false. -/
theorem leafOk_false_of_unregistered (nm : String) (v : JSVal)
    (h : (splitPipe nm).all (fun t => (List.lookup t defaultTypeCheckers).isNone) = true) :
    leafOk nm v = false := by
  rw [leafOk]
  have hgen : ∀ l : List String,
      l.all (fun t => (List.lookup t defaultTypeCheckers).isNone) = true →
      l.any (fun name =>
        match List.lookup name defaultTypeCheckers with
        | some c => c v
        | none => false) = false := by
    intro l hl
    induction l with
    | nil => rfl
    | cons a as ih =>
      rw [List.all_cons, Bool.and_eq_true] at hl
      have ha : List.lookup a defaultTypeCheckers = none :=
        Option.isNone_iff_eq_none.mp hl.1
      rw [List.any_cons, ha, ih hl.2]
      rfl
  exact hgen _ h

/-- C10.  An unknown string leaf name (every `|`-component missing from
the registry) makes the query return false silently — no error, no
warning — whereas the same unknown name used as a list-form operator
keyword raises a configuration error. -/
theorem c10_unknown_leaf_silent_false :
    ∀ (fuel : Nat) (pfx : List String) (nm : String) (v v2 : JSVal) (d : Option String)
      (rest : List Spec),
    (splitPipe nm).all (fun t => (List.lookup t defaultTypeCheckers).isNone) = true →
    isOperatorName nm = false → rest ≠ [] →
    dispatch (fuel + 1) .query pfx (Spec.str nm) v d =
      some (.ok false, Spec.str nm, []) ∧
    dispatch (fuel + 1) .query pfx (Spec.list (Spec.str nm :: rest)) v2 d =
      some (.error cfgError, Spec.list rest, []) := by
  intro fuel pfx nm v v2 d rest h hop hrest
  have hlf : leafOk nm v = false := leafOk_false_of_unregistered nm v h
  constructor
  · have hw : walk (fuel + 1) pfx .query (Spec.str nm) v [d.getD ""] =
        some (.ok false, Spec.str nm, []) := by
      rw [walk_query_leaf, hlf]
    rw [dispatch, hw]
    rfl
  · cases rest with
    | nil => exact absurd rfl hrest
    | cons r1 rs =>
      have hw : walk (fuel + 1) pfx .query (Spec.list (Spec.str nm :: r1 :: rs)) v2
          [d.getD ""] = some (.error cfgError, Spec.list (r1 :: rs), []) := by
        rw [walk]
        simp [opNameOf, hop]
      rw [dispatch, hw]

/-- C10, witness. -/
theorem c10_unknown_leaf_silent_false_witness :
    dispatch 1 .query [] (Spec.str "nope") (JSVal.vStr "x") none =
      some (.ok false, Spec.str "nope", []) ∧
    dispatch 1 .query [] (Spec.list [Spec.str "nope", Spec.str "string"])
        (JSVal.vStr "x") none =
      some (.error cfgError, Spec.list [Spec.str "string"], []) := by
  have h := c10_unknown_leaf_silent_false 0 [] "nope" (JSVal.vStr "x") (JSVal.vStr "x")
    none [Spec.str "string"] (by decide) (by decide) (by simp)
  exact ⟨h.1, h.2⟩

theorem elemsGo_cq (w : Wk) (hw : WkCQ w) :
    ∀ (vs : List JSVal) (t : Spec) (p : List String),
    stripT (elemsGo w .check t vs p) = stripT (elemsGo w .query t vs p) := by
  intro vs
  induction vs with
  | nil => intro t p; rfl
  | cons v rest ih =>
    intro t p
    have h := hw t v p
    cases hc : w .check t v p with
    | none =>
      have hq : w .query t v p = none := by
        rw [hc] at h
        simpa [stripT, Option.map_eq_none'] using h.symm
      rw [elemsGo, elemsGo, hc, hq]
    | some x =>
      obtain ⟨r0, t0, ws0⟩ := x
      rw [hc] at h
      simp only [stripT, Option.map_some'] at h
      obtain ⟨y, hy, hyy⟩ := Option.map_eq_some'.mp h.symm
      obtain ⟨rq, tq, wsq⟩ := y
      simp only [Prod.mk.injEq] at hyy
      rw [elemsGo, elemsGo, hc, hy, hyy.1, hyy.2]
      rcases r0 with e | b
      · rfl
      · cases b with
        | false => rfl
        | true =>
          simp only []
          have h2 := ih t0 p
          cases hec : elemsGo w .check t0 rest p with
          | none =>
            have heq : elemsGo w .query t0 rest p = none := by
              rw [hec] at h2
              simpa [stripT, Option.map_eq_none'] using h2.symm
            rw [heq]
          | some z =>
            obtain ⟨r2, t2, ws2⟩ := z
            rw [hec] at h2
            simp only [stripT, Option.map_some'] at h2
            obtain ⟨z2, hz2, hzz⟩ := Option.map_eq_some'.mp h2.symm
            obtain ⟨r2q, t2q, ws2q⟩ := z2
            simp only [Prod.mk.injEq] at hzz
            rw [hz2, hzz.1, hzz.2]
            rfl

theorem allGo_cq (w : Wk) (hw : WkCQ w) :
    ∀ (ops : List Spec) (v : JSVal) (p : List String),
    stripL (allGo w .check ops v p) = stripL (allGo w .query ops v p) := by
  intro ops
  induction ops with
  | nil => intro v p; rfl
  | cons t rest ih =>
    intro v p
    have h := hw t v p
    cases hc : w .check t v p with
    | none =>
      have hq : w .query t v p = none := by
        rw [hc] at h
        simpa [stripT, Option.map_eq_none'] using h.symm
      rw [allGo, allGo, hc, hq]
    | some x =>
      obtain ⟨r0, t0, ws0⟩ := x
      rw [hc] at h
      simp only [stripT, Option.map_some'] at h
      obtain ⟨y, hy, hyy⟩ := Option.map_eq_some'.mp h.symm
      obtain ⟨rq, tq, wsq⟩ := y
      simp only [Prod.mk.injEq] at hyy
      rw [allGo, allGo, hc, hy, hyy.1, hyy.2]
      rcases r0 with e | b
      · rfl
      · cases b with
        | false => rfl
        | true =>
          simp only []
          have h2 := ih v p
          cases hec : allGo w .check rest v p with
          | none =>
            have heq : allGo w .query rest v p = none := by
              rw [hec] at h2
              simpa [stripL, Option.map_eq_none'] using h2.symm
            rw [heq]
          | some z =>
            obtain ⟨r2, t2, ws2⟩ := z
            rw [hec] at h2
            simp only [stripL, Option.map_some'] at h2
            obtain ⟨z2, hz2, hzz⟩ := Option.map_eq_some'.mp h2.symm
            obtain ⟨r2q, t2q, ws2q⟩ := z2
            simp only [Prod.mk.injEq] at hzz
            rw [hz2, hzz.1, hzz.2]
            rfl

theorem tupleGo_cq (w : Wk) (hw : WkCQ w) :
    ∀ (ops : List Spec) (v : JSVal) (i : Nat) (p : List String),
    stripL (tupleGo w .check ops v i p) = stripL (tupleGo w .query ops v i p) := by
  intro ops
  induction ops with
  | nil => intro v i p; rfl
  | cons t rest ih =>
    intro v i p
    cases hji : jsIndex v i with
    | error e => rw [tupleGo, tupleGo, hji]
    | ok vi =>
      have h := hw t vi (p ++ [toString i])
      cases hc : w .check t vi (p ++ [toString i]) with
      | none =>
        have hq : w .query t vi (p ++ [toString i]) = none := by
          rw [hc] at h
          simpa [stripT, Option.map_eq_none'] using h.symm
        rw [tupleGo, tupleGo, hji]
        simp only []
        rw [hc, hq]
      | some x =>
        obtain ⟨r0, t0, ws0⟩ := x
        rw [hc] at h
        simp only [stripT, Option.map_some'] at h
        obtain ⟨y, hy, hyy⟩ := Option.map_eq_some'.mp h.symm
        obtain ⟨rq, tq, wsq⟩ := y
        simp only [Prod.mk.injEq] at hyy
        rw [tupleGo, tupleGo, hji]
        simp only []
        rw [hc, hy, hyy.1, hyy.2]
        rcases r0 with e | b
        · rfl
        · cases b with
          | false => rfl
          | true =>
            simp only []
            have h2 := ih v (i + 1) p
            cases hec : tupleGo w .check rest v (i + 1) p with
            | none =>
              have heq : tupleGo w .query rest v (i + 1) p = none := by
                rw [hec] at h2
                simpa [stripL, Option.map_eq_none'] using h2.symm
              rw [heq]
            | some z =>
              obtain ⟨r2, t2, ws2⟩ := z
              rw [hec] at h2
              simp only [stripL, Option.map_some'] at h2
              obtain ⟨z2, hz2, hzz⟩ := Option.map_eq_some'.mp h2.symm
              obtain ⟨r2q, t2q, ws2q⟩ := z2
              simp only [Prod.mk.injEq] at hzz
              rw [hz2, hzz.1, hzz.2]
              rfl

theorem fieldsGo_cq (w : Wk) (hw : WkCQ w) :
    ∀ (fields : List (String × Spec)) (vv : JSVal) (p : List String),
    stripF (fieldsGo w .check fields vv p) = stripF (fieldsGo w .query fields vv p) := by
  intro fields
  induction fields with
  | nil => intro vv p; rfl
  | cons kv rest ih =>
    obtain ⟨k, fs⟩ := kv
    intro vv p
    have h := hw fs (jsGet vv k) (p ++ [k])
    cases hc : w .check fs (jsGet vv k) (p ++ [k]) with
    | none =>
      have hq : w .query fs (jsGet vv k) (p ++ [k]) = none := by
        rw [hc] at h
        simpa [stripT, Option.map_eq_none'] using h.symm
      rw [fieldsGo, fieldsGo, hc, hq]
    | some x =>
      obtain ⟨r0, t0, ws0⟩ := x
      rw [hc] at h
      simp only [stripT, Option.map_some'] at h
      obtain ⟨y, hy, hyy⟩ := Option.map_eq_some'.mp h.symm
      obtain ⟨rq, tq, wsq⟩ := y
      simp only [Prod.mk.injEq] at hyy
      rw [fieldsGo, fieldsGo, hc, hy, hyy.1, hyy.2]
      rcases r0 with e | b
      · rfl
      · cases b with
        | false => rfl
        | true =>
          simp only []
          have h2 := ih vv p
          cases hec : fieldsGo w .check rest vv p with
          | none =>
            have heq : fieldsGo w .query rest vv p = none := by
              rw [hec] at h2
              simpa [stripF, Option.map_eq_none'] using h2.symm
            rw [heq]
          | some z =>
            obtain ⟨r2, t2, ws2⟩ := z
            rw [hec] at h2
            simp only [stripF, Option.map_some'] at h2
            obtain ⟨z2, hz2, hzz⟩ := Option.map_eq_some'.mp h2.symm
            obtain ⟨r2q, t2q, ws2q⟩ := z2
            simp only [Prod.mk.injEq] at hzz
            rw [hz2, hzz.1, hzz.2]
            rfl

theorem applyOp_cq (w : Wk) (hw : WkCQ w) (pfx : List String) (name : String)
    (ops : List Spec) (v : JSVal) (p : List String) :
    stripL (applyOp w .check pfx name ops v p) =
      stripL (applyOp w .query pfx name ops v p) := by
  rw [applyOp, applyOp]
  split
  · exact allGo_cq w hw ops v p
  · split
    · cases hsg : someGo w ops v (joinDots p) with
      | none => rfl
      | some x =>
        obtain ⟨r0, ops0, ws0⟩ := x
        rcases r0 with e | agg
        · rfl
        · simp only []
          cases agg <;> rfl
    · split
      · cases hng : notGo w ops v (joinDots p) with
        | none => rfl
        | some x =>
          obtain ⟨r0, ops0, ws0⟩ := x
          rcases r0 with e | agg
          · rfl
          · simp only []
            cases agg <;> rfl
      · split
        · exact tupleGo_cq w hw ops v 0 p
        · rfl

theorem walk_cq (pfx : List String) :
    ∀ n : Nat, WkCQ (fun m s v p => walk n pfx m s v p) := by
  intro n
  induction n with
  | zero => intro s v p; rfl
  | succ n ih =>
    intro s v p
    cases s with
    | str t =>
      cases hok : leafOk t v <;> simp [walk, modeFn, hok, stripT]
    | list elems =>
      cases elems with
      | nil => rfl
      | cons t1 ts =>
        cases ts with
        | nil =>
          cases v with
          | vArr vs =>
            simp only [walk]
            have hg := elemsGo_cq _ ih vs t1 p
            cases hec : elemsGo (fun m' s' v' p' => walk n pfx m' s' v' p') .check t1 vs p with
            | none =>
              have heq :
                  elemsGo (fun m' s' v' p' => walk n pfx m' s' v' p') .query t1 vs p = none := by
                rw [hec] at hg
                simpa [stripT, Option.map_eq_none'] using hg.symm
              rw [heq]
            | some x =>
              obtain ⟨r0, t0, ws0⟩ := x
              rw [hec] at hg
              simp only [stripT, Option.map_some'] at hg
              obtain ⟨y, hy, hyy⟩ := Option.map_eq_some'.mp hg.symm
              obtain ⟨rq, tq, wsq⟩ := y
              simp only [Prod.mk.injEq] at hyy
              rw [hy, hyy.1, hyy.2]
              rfl
          | vNull => rfl
          | vUndefined => rfl
          | vBool b => rfl
          | vNum nn => rfl
          | vStr str => rfl
          | vBigInt i => rfl
          | vSym dd => rfl
          | vFun nm a => rfl
          | vObj c fl => rfl
        | cons t2 ts2 =>
          cases hop : opNameOf t1 with
          | none => simp [walk, hop, stripT]
          | some name =>
            simp only [walk, hop]
            have hg := applyOp_cq _ ih pfx name (t2 :: ts2) v p
            cases hao : applyOp (fun m' s' v' p' => walk n pfx m' s' v' p') .check pfx name
                (t2 :: ts2) v p with
            | none =>
              have heq : applyOp (fun m' s' v' p' => walk n pfx m' s' v' p') .query pfx name
                  (t2 :: ts2) v p = none := by
                rw [hao] at hg
                simpa [stripL, Option.map_eq_none'] using hg.symm
              rw [heq]
            | some x =>
              obtain ⟨r0, ops0, ws0⟩ := x
              rw [hao] at hg
              simp only [stripL, Option.map_some'] at hg
              obtain ⟨y, hy, hyy⟩ := Option.map_eq_some'.mp hg.symm
              obtain ⟨rq, opsq, wsq⟩ := y
              simp only [Prod.mk.injEq] at hyy
              rw [hy, hyy.1, hyy.2]
              rfl
    | map fields =>
      cases fields with
      | nil =>
        by_cases hov : jsIsObjectLike v = true <;> simp [walk, hov, fieldsGo, stripT]
      | cons kv rest =>
        obtain ⟨k, operand⟩ := kv
        cases rest with
        | nil =>
          by_cases hop : isOperatorName k = true
          · cases operand with
            | list ops =>
              simp only [walk, hop, if_true]
              have hg := applyOp_cq _ ih pfx k ops v p
              cases hao : applyOp (fun m' s' v' p' => walk n pfx m' s' v' p') .check pfx k
                  ops v p with
              | none =>
                have heq : applyOp (fun m' s' v' p' => walk n pfx m' s' v' p') .query pfx k
                    ops v p = none := by
                  rw [hao] at hg
                  simpa [stripL, Option.map_eq_none'] using hg.symm
                rw [heq]
              | some x =>
                obtain ⟨r0, ops0, ws0⟩ := x
                rw [hao] at hg
                simp only [stripL, Option.map_some'] at hg
                obtain ⟨y, hy, hyy⟩ := Option.map_eq_some'.mp hg.symm
                obtain ⟨rq, opsq, wsq⟩ := y
                simp only [Prod.mk.injEq] at hyy
                rw [hy, hyy.1, hyy.2]
                rfl
            | str ss => simp [walk, hop, stripT]
            | map mf => simp [walk, hop, stripT]
            | func pr => simp [walk, hop, stripT]
          · by_cases hov : jsIsObjectLike v = true
            · simp only [walk, hop, if_false, Bool.false_eq_true, hov, if_true]
              have hg := fieldsGo_cq _ ih [(k, operand)] (undot v) p
              cases hfg : fieldsGo (fun m' s' v' p' => walk n pfx m' s' v' p') .check
                  [(k, operand)] (undot v) p with
              | none =>
                have heq : fieldsGo (fun m' s' v' p' => walk n pfx m' s' v' p') .query
                    [(k, operand)] (undot v) p = none := by
                  rw [hfg] at hg
                  simpa [stripF, Option.map_eq_none'] using hg.symm
                rw [heq]
              | some x =>
                obtain ⟨r0, f0, ws0⟩ := x
                rw [hfg] at hg
                simp only [stripF, Option.map_some'] at hg
                obtain ⟨y, hy, hyy⟩ := Option.map_eq_some'.mp hg.symm
                obtain ⟨rq, fq, wsq⟩ := y
                simp only [Prod.mk.injEq] at hyy
                rw [hy, hyy.1, hyy.2]
                rfl
            · simp [walk, hop, hov, stripT]
        | cons kv2 rest2 =>
          by_cases hov : jsIsObjectLike v = true
          · simp only [walk, hov, if_true]
            have hg := fieldsGo_cq _ ih ((k, operand) :: kv2 :: rest2) (undot v) p
            cases hfg : fieldsGo (fun m' s' v' p' => walk n pfx m' s' v' p') .check
                ((k, operand) :: kv2 :: rest2) (undot v) p with
            | none =>
              have heq : fieldsGo (fun m' s' v' p' => walk n pfx m' s' v' p') .query
                  ((k, operand) :: kv2 :: rest2) (undot v) p = none := by
                rw [hfg] at hg
                simpa [stripF, Option.map_eq_none'] using hg.symm
              rw [heq]
            | some x =>
              obtain ⟨r0, f0, ws0⟩ := x
              rw [hfg] at hg
              simp only [stripF, Option.map_some'] at hg
              obtain ⟨y, hy, hyy⟩ := Option.map_eq_some'.mp hg.symm
              obtain ⟨rq, fq, wsq⟩ := y
              simp only [Prod.mk.injEq] at hyy
              rw [hy, hyy.1, hyy.2]
              rfl
          · simp [walk, hov, stripT]
    | func pred =>
      cases hp : pred v <;> simp [walk, modeFn, hp, stripT]

/-- C7.  The Check dispatcher `check.is(s, v, d)` returns the pass/fail
boolean of the match: its result (and thrown configuration errors, and
the post-state of the spec) coincide with the plain Query dispatcher's,
and whenever the returned boolean is false at least one warning was
emitted first.  Callers may therefore branch on the returned value. -/
theorem c7_check_returns_match :
    ∀ (fuel : Nat) (pfx : List String) (s : Spec) (v : JSVal) (d : Option String),
    ((dispatch fuel .check pfx s v d).map (fun r => (r.1, r.2.1)) =
      (dispatch fuel .query pfx s v d).map (fun r => (r.1, r.2.1))) ∧
    (∀ s' ws, dispatch fuel .check pfx s v d = some (.ok false, s', ws) → ws ≠ []) := by
  intro fuel pfx s v d
  have hg := walk_cq pfx fuel s v [d.getD ""]
  simp only [] at hg
  constructor
  · rw [dispatch, dispatch]
    cases hc : walk fuel pfx .check s v [d.getD ""] with
    | none =>
      have hq : walk fuel pfx .query s v [d.getD ""] = none := by
        rw [hc] at hg
        simpa [stripT, Option.map_eq_none'] using hg.symm
      rw [hq]
    | some x =>
      obtain ⟨r0, s0, ws0⟩ := x
      rw [hc] at hg
      simp only [stripT, Option.map_some'] at hg
      obtain ⟨y, hy, hyy⟩ := Option.map_eq_some'.mp hg.symm
      obtain ⟨rq, sq, wsq⟩ := y
      simp only [Prod.mk.injEq] at hyy
      rw [hy, hyy.1, hyy.2]
      rcases r0 with e | b
      · rfl
      · simp only []
        cases b <;> rfl
  · intro s' ws h
    rw [dispatch] at h
    cases hc : walk fuel pfx .check s v [d.getD ""] with
    | none =>
      rw [hc] at h
      exact absurd h (by simp)
    | some x =>
      obtain ⟨r0, s0, ws0⟩ := x
      rw [hc] at h
      rcases r0 with e | b
      · simp at h
      · cases b with
        | true => simp [modeFn] at h
        | false =>
          simp only [modeFn] at h
          simp only [Option.some.injEq, Prod.mk.injEq] at h
          intro hws
          rw [hws] at h
          simp at h

/-- C7, witness: a failing leaf check returns false after emitting the
warning (twice: once at the leaf, once at the dispatch level). -/
theorem c7_check_returns_match_witness :
    ((dispatch 1 .check [] (Spec.str "string") (JSVal.vNum (.ofInt 1)) none).map
        (fun r => (r.1, r.2.1)) =
      (dispatch 1 .query [] (Spec.str "string") (JSVal.vNum (.ofInt 1)) none).map
        (fun r => (r.1, r.2.1))) ∧
    ([formatExpected [] "string" (JSVal.vNum (.ofInt 1)) [""],
      formatExpected [] "string" (JSVal.vNum (.ofInt 1)) [""]] : List String) ≠ [] :=
  ⟨(c7_check_returns_match 1 [] (Spec.str "string") (JSVal.vNum (.ofInt 1)) none).1,
   (c7_check_returns_match 1 [] (Spec.str "string") (JSVal.vNum (.ofInt 1)) none).2
     (Spec.str "string")
     [formatExpected [] "string" (JSVal.vNum (.ofInt 1)) [""],
      formatExpected [] "string" (JSVal.vNum (.ofInt 1)) [""]] rfl⟩
